import Mathlib

/-!
Verification of the document compiler `mdtodoc` of the `notes` repository
(src/main.rs), over a shallow embedding of the Rust source.

The markdown grammar parser (pulldown_cmark) is treated, as in the source,
as an external producer of a finite event sequence: `mdtodoc` is embedded
as a function on event lists.  The external syntect highlighter and the
embedded stylesheet are abstracted into an `Externals` record of functions
quantified over in the theorems; panicking branches of the Rust code
(`unwrap`, `unreachable`) are modeled by `Option` with `none` at each panic
site.
-/

namespace Notes

/-- The subset of pulldown_cmark events relevant to `mdtodoc`:
start/end of fenced code blocks (carrying the info string), text runs,
raw HTML, paragraphs, footnote references and footnote definitions. -/
inductive Event
  | startParagraph
  | endParagraph
  | startCodeBlock (lang : String)
  | endCodeBlock
  | text (s : String)
  | html (s : String)
  | footnoteReference (name : String)
  | startFootnoteDef (name : String)
  | endFootnoteDef
deriving DecidableEq

/-- The `Meta` struct of src/main.rs (title, date, optional lang and desc).
`NaiveDateTime` is represented by its parsed text form, which is all the
program ever compares or stores. -/
structure Meta where
  title : String
  date : String
  lang : Option String
  desc : Option String
deriving DecidableEq

/-- `Meta::inferred`: an inferred record carries no lang and no desc. -/
def Meta.inferred (title : String) (created : String) : Meta :=
  { title := title, date := created, lang := none, desc := none }

/- ### A model of `toml::de::from_str::<Meta>`

The `Meta` struct derives `Deserialize` with no serde attributes, so the
derived deserializer *ignores* unknown keys (serde's default) while failing
on duplicate keys, missing required fields (`title`, `date`) and
type-mismatched values.  `date: NaiveDateTime` deserializes from a string
in the chrono `%Y-%m-%dT%H:%M:%S` shape.  The model covers the basic
`key = "value"` line subset of TOML (no escapes, no multi-line strings);
inputs outside the subset are conservatively rejected. -/

def isWs (c : Char) : Bool :=
  c = ' ' || c = '\t' || c = '\n' || c = '\r'

def trimChars (cs : List Char) : List Char :=
  ((cs.dropWhile isWs).reverse.dropWhile isWs).reverse

def strTrim (s : String) : String :=
  ⟨trimChars s.data⟩

def splitLines : List Char → List (List Char)
  | [] => [[]]
  | '\n' :: rest => [] :: splitLines rest
  | c :: rest =>
    match splitLines rest with
    | [] => [[c]]
    | l :: ls => (c :: l) :: ls

/-- Split a line at its first `=`, returning the key part and value part. -/
def splitEq : List Char → Option (List Char × List Char)
  | [] => none
  | '=' :: rest => some ([], rest)
  | c :: rest => (splitEq rest).map (fun kv => (c :: kv.1, kv.2))

/-- Body of a basic TOML string after the opening quote: plain characters
up to a final closing quote (escapes unmodeled, hence rejected). -/
def innerQuoted : List Char → Option (List Char)
  | [] => none
  | ['"'] => some []
  | '"' :: _ :: _ => none
  | '\\' :: _ => none
  | c :: rest => (innerQuoted rest).map (c :: ·)

def parseQuoted : List Char → Option String
  | '"' :: rest => (innerQuoted rest).map (fun l => ⟨l⟩)
  | _ => none

def isDigit (c : Char) : Bool := '0' ≤ c && c ≤ '9'

def matchesMask : List Char → List Char → Bool
  | [], [] => true
  | '0' :: ms, c :: cs => isDigit c && matchesMask ms cs
  | m :: ms, c :: cs => c = m && matchesMask ms cs
  | _, _ => false

/-- The `%Y-%m-%dT%H:%M:%S` text shape chrono's `NaiveDateTime`
deserializer accepts. -/
def isDatetimeLike (s : String) : Bool :=
  matchesMask "0000-00-00T00:00:00".data s.data

def isBareToken (cs : List Char) : Bool :=
  !cs.isEmpty && cs.all (fun c => !isWs c && c ≠ '"')

structure TomlAcc where
  title : Option String
  date : Option String
  lang : Option String
  desc : Option String
  seen : List String

def tomlLine (acc : TomlAcc) (line : List Char) : Option TomlAcc :=
  let line := trimChars line
  if line = [] then some acc
  else
    match splitEq line with
    | none => none
    | some kv =>
      let key : String := ⟨trimChars kv.1⟩
      let v := trimChars kv.2
      if key = "" then none
      else if acc.seen.contains key then none
      else
        let acc := { acc with seen := acc.seen ++ [key] }
        if key = "title" then (parseQuoted v).map (fun s => { acc with title := some s })
        else if key = "date" then
          match parseQuoted v with
          | some s => if isDatetimeLike s then some { acc with date := some s } else none
          | none => none
        else if key = "lang" then (parseQuoted v).map (fun s => { acc with lang := some s })
        else if key = "desc" then (parseQuoted v).map (fun s => { acc with desc := some s })
        else
          -- unknown key: serde's derived impl ignores the field; the value
          -- must still be a syntactically valid TOML value
          if (parseQuoted v).isSome || isBareToken v then some acc else none

def tomlDeMeta (s : String) : Option Meta := do
  let acc ← (splitLines s.data).foldlM tomlLine ⟨none, none, none, none, []⟩
  match acc.title, acc.date with
  | some t, some d => some ⟨t, d, acc.lang, acc.desc⟩
  | _, _ => none

/- ### External collaborators

The syntect registry/engine (process-wide, read-only) and the embedded
stylesheet text (`include_str!("styles.css")`, not part of the compiler's
logic).  Syntax-definition handles are abstracted as naturals; a failing
`highlighted_html_for_string` call is `none`. -/

structure Externals where
  findSynByToken : String → Option Nat
  plainText : Nat
  highlightedHtmlForString : String → Nat → Option String
  styles : String

/-- `find_syntax_by_token(lang).unwrap_or_else(find_syntax_plain_text)`. -/
def lookupSyn (E : Externals) (lang : String) : Nat :=
  (E.findSynByToken lang).getD E.plainText

/-- `highlighted_html_for_string(code, .., syntax, ..).unwrap_or(code.clone())`. -/
def doHighlight (E : Externals) (code : String) (syn : Nat) : String :=
  (E.highlightedHtmlForString code syn).getD code

/- ### The event transformer (the `filter_map` closure of `mdtodoc`) -/

inductive ParseState
  | normal
  | meta
  | highlight
deriving DecidableEq

/-- The mutable state captured by the `filter_map` closure, plus the list
of events it has emitted so far (`output`).  The `in_footnote` stack grows
at the head (head = top of the Rust `Vec`). -/
structure MdState where
  parse : ParseState
  code : String
  meta : Option Meta
  syn : Nat
  footnotes : List (List Event)
  inFootnote : List (List Event)
  fnNumbers : List (String × Nat × Nat)
  output : List Event

def fnLookup : List (String × Nat × Nat) → String → Option (Nat × Nat)
  | [], _ => none
  | e :: rest, name => if e.1 = name then some e.2 else fnLookup rest name

def fnUpdate : List (String × Nat × Nat) → String → Nat × Nat → List (String × Nat × Nat)
  | [], _, _ => []
  | e :: rest, name, nv =>
    if e.1 = name then (e.1, nv) :: rest else e :: fnUpdate rest name nv

/-- `footnote_numbers.entry(name).or_insert((len+1, 0)); *nr += 1` — the
resulting map, the presentation number and the updated usage count. -/
def fnBump (m : List (String × Nat × Nat)) (name : String) :
    Nat × Nat × List (String × Nat × Nat) :=
  match fnLookup m name with
  | some nc => (nc.1, nc.2 + 1, fnUpdate m name (nc.1, nc.2 + 1))
  | none => (m.length + 1, 1, m ++ [(name, m.length + 1, 1)])

/-- The inline fragment emitted for a footnote reference. -/
def refHtml (name : String) (n nr : Nat) : String :=
  "<sup class=\"footnote-reference\" id=\"fr-" ++ name ++ "-" ++ toString nr ++
    "\"><a href=\"#fn-" ++ name ++ "\">[" ++ toString n ++ "]</a></sup>"

/-- Append an event to the top buffer (`in_footnote.last_mut().unwrap()`);
only ever invoked on a non-empty stack. -/
def pushTop (bufs : List (List Event)) (e : Event) : List (List Event) :=
  match bufs with
  | [] => []
  | b :: r => (b ++ [e]) :: r

/-- `Event::FootnoteReference(name)` arm. -/
def stepRef (st : MdState) (name : String) : MdState :=
  let bump := fnBump st.fnNumbers name
  let htmlEv := Event.html (refHtml name bump.1 bump.2.1)
  match st.inFootnote with
  | [] => { st with fnNumbers := bump.2.2, output := st.output ++ [htmlEv] }
  | b :: r => { st with fnNumbers := bump.2.2, inFootnote := (b ++ [htmlEv]) :: r }

/-- One iteration of the `filter_map` closure.  `none` is the
`in_footnote.pop().unwrap()` panic on an unmatched definition end. -/
def step (E : Externals) (st : MdState) (e : Event) : Option MdState :=
  match e with
  | .startFootnoteDef _ => some { st with inFootnote := [e] :: st.inFootnote }
  | .endFootnoteDef =>
    match st.inFootnote with
    | [] => none
    | f :: rest =>
      some { st with inFootnote := rest, footnotes := st.footnotes ++ [f ++ [e]] }
  | .footnoteReference name => some (stepRef st name)
  | _ =>
    if st.inFootnote ≠ [] then
      some { st with inFootnote := pushTop st.inFootnote e }
    else
      match e with
      | .startCodeBlock lang =>
        let lang := strTrim lang
        if lang = "meta" then some { st with parse := .meta }
        else some { st with parse := .highlight, syn := lookupSyn E lang }
      | .text t =>
        match st.parse with
        | .normal => some { st with output := st.output ++ [e] }
        | .meta =>
          match tomlDeMeta t with
          | some m => some { st with meta := some m }
          | none => some st
        | .highlight => some { st with code := st.code ++ t }
      | .endCodeBlock =>
        match st.parse with
        | .normal => some { st with output := st.output ++ [e] }
        | .meta => some { st with parse := .normal }
        | .highlight =>
          some { st with parse := .normal, code := "",
                         output := st.output ++ [.html (doHighlight E st.code st.syn)] }
      | _ => some { st with output := st.output ++ [e] }

def initState (E : Externals) : MdState :=
  { parse := .normal, code := "", meta := none, syn := E.plainText,
    footnotes := [], inFootnote := [], fnNumbers := [], output := [] }

def runT (E : Externals) : MdState → List Event → Option MdState
  | st, [] => some st
  | st, e :: es =>
    match step E st e with
    | none => none
    | some st' => runT E st' es

/- ### The HTML writer (`pulldown_cmark::html::write_html_fmt`) for the
event subset that `mdtodoc` actually feeds to it. -/

def escapeHtmlChar (c : Char) : String :=
  if c = '&' then "&amp;"
  else if c = '<' then "&lt;"
  else if c = '>' then "&gt;"
  else if c = '"' then "&quot;"
  else String.singleton c

def escapeHtml (s : String) : String :=
  String.join (s.data.map escapeHtmlChar)

def renderEvent : Event → String
  | .startParagraph => "<p>"
  | .endParagraph => "</p>\n"
  | .startCodeBlock info =>
    let lang : String := ⟨info.data.takeWhile (fun c => c ≠ ' ')⟩
    if lang = "" then "<pre><code>"
    else "<pre><code class=\"language-" ++ escapeHtml lang ++ "\">"
  | .endCodeBlock => "</code></pre>\n"
  | .text s => escapeHtml s
  | .html s => s
  -- the transformed stream `mdtodoc` writes never contains footnote
  -- events: references are rewritten to Html and definitions are either
  -- buffered or rewritten by the backref pass
  | .footnoteReference _ => ""
  | .startFootnoteDef _ => ""
  | .endFootnoteDef => ""

def writeHtml (events : List Event) : String :=
  String.join (events.map renderEvent)

/- ### Footnote list rendering (retain, sort, backrefs) -/

def fnUsage (m : List (String × Nat × Nat)) (name : String) : Nat :=
  ((fnLookup m name).getD (0, 0)).2

def fnNumber (m : List (String × Nat × Nat)) (name : String) : Nat :=
  ((fnLookup m name).getD (0, 0)).1

/-- `footnotes.retain(..)`: keep a collected definition only when its name
was referenced at least once. -/
def keepFn (m : List (String × Nat × Nat)) (fl : List Event) : Bool :=
  match fl.head? with
  | some (.startFootnoteDef name) => fnUsage m name != 0
  | _ => false

/-- `sort_by_cached_key` key.  The `_ => unreachable!()` arm can only be
evaluated on lists passing `keepFn`, whose head is a definition start. -/
def fnKey (m : List (String × Nat × Nat)) (fl : List Event) : Nat :=
  match fl.head? with
  | some (.startFootnoteDef name) => fnNumber m name
  | _ => 0

/-- The backlink run appended at the end of a footnote: one link per
usage, the first unnumbered, later ones numbered by usage index. -/
def backrefString (name : String) (usageCount : Nat) : String :=
  String.join ((List.range usageCount).map (fun i =>
    let usage := i + 1
    if usage = 1 then
      " <a href=\"#fr-" ++ name ++ "-" ++ toString usage ++ "\">↩</a>"
    else
      " <a href=\"#fr-" ++ name ++ "-" ++ toString usage ++ "\">↩" ++ toString usage ++ "</a>"))

structure BrState where
  name : String
  hwb : Bool

/-- Writing the backlink run: `footnote_numbers.get(&name).unwrap()` is the
`none` panic site. -/
def brBackrefs (m : List (String × Nat × Nat)) (s : BrState) (f : Event) :
    Option (BrState × Event) :=
  match fnLookup m s.name with
  | none => none
  | some nc =>
    let ending := backrefString s.name nc.2 ++
      (if f = Event.endFootnoteDef then "</li>\n" else "</p>\n")
    some ({ s with hwb := true }, .html ending)

/-- One iteration of the per-footnote `map` closure (index `i` within a
footnote of `flLen` events).  `none` on `FootnoteReference` is
`unreachable!("converted to HTML earlier")`. -/
def brStep (m : List (String × Nat × Nat)) (flLen : Nat) (s : BrState) (i : Nat)
    (f : Event) : Option (BrState × Event) :=
  match f with
  | .startFootnoteDef current =>
    some ({ name := current, hwb := false },
      .html ("<li id=\"fn-" ++ current ++ "\">"))
  | .endFootnoteDef =>
    if !s.hwb && flLen - 2 ≤ i then brBackrefs m s f
    else some (s, .html "</li>\n")
  | .endParagraph =>
    if !s.hwb && flLen - 2 ≤ i then brBackrefs m s f
    else some (s, f)
  | .footnoteReference _ => none
  | f => some (s, f)

def brRun (m : List (String × Nat × Nat)) (flLen : Nat) :
    BrState → Nat → List Event → Option (List Event)
  | _, _, [] => some []
  | s, i, f :: fs =>
    match brStep m flLen s i f with
    | none => none
    | some se => (brRun m flLen se.1 (i + 1) fs).map (se.2 :: ·)

/-- The per-footnote event rewriting of the `flat_map` closure. -/
def renderFootnote (m : List (String × Nat × Nat)) (fl : List Event) :
    Option (List Event) :=
  brRun m fl.length ⟨"", false⟩ 0 fl

/-- Ordering used by `sort_by_cached_key` (a stable sort by key). -/
def fnLe (m : List (String × Nat × Nat)) (a b : List Event) : Bool :=
  fnKey m a ≤ fnKey m b

/-- Stable insertion: place `x` before the first element not below it. -/
def stInsert (le : α → α → Bool) (x : α) : List α → List α
  | [] => [x]
  | y :: ys => if le x y then x :: y :: ys else y :: stInsert le x ys

/-- A stable sort.  Rust's `sort_by_cached_key` is stable, and a stable
sort's output is uniquely determined (ascending keys, equal keys in
original order), so any stable implementation models it faithfully. -/
def stSort (le : α → α → Bool) : List α → List α
  | [] => []
  | x :: xs => stInsert le x (stSort le xs)

/-- The `flat_map` over the sorted footnotes: concatenation of each
footnote's rewritten event run. -/
def renderAll (m : List (String × Nat × Nat)) : List (List Event) → Option (List Event)
  | [] => some []
  | fl :: fls =>
    match renderFootnote m fl, renderAll m fls with
    | some out, some rest => some (out ++ rest)
    | _, _ => none

/-- The `if !footnotes.is_empty()` tail of `mdtodoc`: retain referenced
definitions, stable-sort by presentation number, rewrite each through the
backref pass and write the resulting events between the list shell. -/
def footnoteSection (m : List (String × Nat × Nat)) (footnotes : List (List Event)) :
    Option String :=
  if footnotes = [] then some ""
  else
    let kept := footnotes.filter (keepFn m)
    let sorted := stSort (fnLe m) kept
    (renderAll m sorted).map (fun evs =>
      "<hr><ol class=\"footnotes-list\">\n" ++ writeHtml evs ++ "</ol>\n")

/- ### The rinja `DocumentTemplate` (template-level escaping disabled,
explicit html escape filters on title and desc, none on lang). -/

/-- rinja's `|e("html")` filter. -/
def rinjaEscape (s : String) : String :=
  String.join (s.data.map (fun c =>
    if c = '&' then "&amp;"
    else if c = '<' then "&lt;"
    else if c = '>' then "&gt;"
    else if c = '"' then "&quot;"
    else if c.toNat = 39 then "&#x27;"
    else String.singleton c))

/-- The `{% match meta.lang %}` arm of the template. -/
def langAttr : Option String → String
  | some lang => "<html lang=\"" ++ lang ++ "\">\n"
  | none => "<html lang=\"en-US\">\n"

/-- The `{% match meta.desc %}` arm of the template. -/
def descMetas : Option String → String
  | some desc =>
    "<meta name=\"description\" content=\"" ++ rinjaEscape desc ++ "\" />" ++ "\n" ++
    "<meta property=\"og:description\" content=\"" ++ rinjaEscape desc ++ "\" />" ++ "\n"
  | none => ""

def renderTemplate (meta : Meta) (styles markdown : String) : String :=
  "<!DOCTYPE html>\n" ++ langAttr meta.lang ++
  "<head>\n<meta charset=\"utf-8\" />\n" ++
  "<title>" ++ rinjaEscape meta.title ++ "</title>" ++ "\n" ++
  "<meta property=\"og:title\" content=\"" ++ rinjaEscape meta.title ++ "\" />" ++ "\n" ++
  descMetas meta.desc ++
  "<style> " ++ styles ++ " </style>\n</head>\n<body><main>\n" ++
  "<h1> " ++ rinjaEscape meta.title ++ "</h1>" ++ "\n" ++
  "<article>" ++ markdown ++ "</article>\n</main></body>\n</html>\n"

/- ### `mdtodoc` -/

/-- `fn mdtodoc(md, infered_meta) -> (String, Meta)` over the event
sequence the markdown parser produces for `md`.  `none` marks a reached
panic site. -/
def mdtodoc (E : Externals) (events : List Event) (inferedMeta : Meta) :
    Option (String × Meta) :=
  (runT E (initState E) events).bind (fun st =>
    (footnoteSection st.fnNumbers st.footnotes).map (fun fns =>
      let meta := st.meta.getD inferedMeta
      (renderTemplate meta E.styles (writeHtml st.output ++ fns), meta)))

/- ### Auxiliary specification-side functions used in theorem statements -/

/-- Names of all footnote reference events, in stream order. -/
def refNames : List Event → List String
  | [] => []
  | .footnoteReference name :: es => name :: refNames es
  | _ :: es => refNames es

def frStep (acc : List String) (n : String) : List String :=
  if n ∈ acc then acc else acc ++ [n]

/-- Distinct names in order of first occurrence. -/
def firstRefs (names : List String) : List String :=
  names.foldl frStep []

/-- Map update performed by the footnote-reference arm. -/
def bumpMap (m : List (String × Nat × Nat)) (name : String) :
    List (String × Nat × Nat) :=
  (fnBump m name).2.2

/-- The numbering map resulting from a reference-name sequence. -/
def numbersOf (names : List String) : List (String × Nat × Nat) :=
  names.foldl bumpMap []

/-- Projection of a numbering map to name/presentation-number pairs. -/
def nameNums (m : List (String × Nat × Nat)) : List (String × Nat) :=
  m.map (fun e => (e.1, e.2.1))

/-- Names paired with consecutive numbers starting at `k`. -/
def numberFrom (k : Nat) : List String → List (String × Nat)
  | [] => []
  | n :: ns => (n, k) :: numberFrom (k + 1) ns

/-- Events that the transformer never stores inside a footnote buffer. -/
def NoFnEvent (e : Event) : Prop :=
  (∀ n, e ≠ .footnoteReference n) ∧ ∀ n, e ≠ .startFootnoteDef n

/-- Shape invariant of a collected or in-progress footnote buffer: it opens
with the definition-start event and buffers no raw reference or
definition-start events afterwards. -/
def GoodBuf (fl : List Event) : Prop :=
  ∃ name rest, fl = .startFootnoteDef name :: rest ∧ ∀ e ∈ rest, NoFnEvent e

def InvBufs (st : MdState) : Prop :=
  (∀ fl ∈ st.footnotes, GoodBuf fl) ∧ ∀ fl ∈ st.inFootnote, GoodBuf fl

/-- Stack-discipline check for footnote definition events: an end event
never occurs at depth zero (guaranteed by pulldown_cmark's balanced tag
stream). -/
def fnBalanced : Nat → List Event → Bool
  | _, [] => true
  | d, .startFootnoteDef _ :: es => fnBalanced (d + 1) es
  | d, .endFootnoteDef :: es => d != 0 && fnBalanced (d - 1) es
  | d, _ :: es => fnBalanced d es

/-- Substring test (used to state presence/absence of fragments in the
rendered document). -/
def strContainsB (h n : String) : Bool :=
  h.data.tails.any (n.data.isPrefixOf ·)

/- ### Concrete instances used to exercise the theorems -/

/-- A concrete external registry/engine/stylesheet: no token matches any
syntax definition and the highlighting engine always fails internally. -/
def E0 : Externals := ⟨fun _ => none, 0, fun _ _ => none, "S"⟩

/-- A concrete inferred metadata record. -/
def m0 : Meta := ⟨"X", "2020-01-01T00:00:00", none, none⟩

/-- Body-order references `b, a, b` with `a` defined before `b`. -/
def exNumbering : List Event :=
  [.footnoteReference "b", .footnoteReference "a", .footnoteReference "b",
   .startFootnoteDef "a", .startParagraph, .text "A", .endParagraph, .endFootnoteDef,
   .startFootnoteDef "b", .startParagraph, .text "B", .endParagraph, .endFootnoteDef]

/-- A footnote referenced exactly three times. -/
def exTriple : List Event :=
  [.footnoteReference "n", .footnoteReference "n", .footnoteReference "n",
   .startFootnoteDef "n", .startParagraph, .text "hi", .endParagraph, .endFootnoteDef]

/-- A `meta` fenced block occurring inside a referenced footnote
definition. -/
def exMetaInFootnote : List Event :=
  [.footnoteReference "x",
   .startFootnoteDef "x", .startCodeBlock "meta", .text "date = 2024-01-01\n",
   .endCodeBlock, .endFootnoteDef]

/-- A well-formed `meta` block body. -/
def exMetaText : String := "title = \"T\"\ndate = \"2024-01-01T00:00:00\""

/-- A `meta` block body carrying a key outside title/date/lang/desc. -/
def exMetaUnknownKey : String :=
  "title = \"T\"\ndate = \"2024-01-01T00:00:00\"\nfoo = \"bar\""

/-- A defined but never-referenced footnote. -/
def exUnused : List Event :=
  [.startParagraph, .text "body", .endParagraph,
   .startFootnoteDef "u", .startParagraph, .text "gone", .endParagraph, .endFootnoteDef]

/-- One referenced footnote `a` and one never-referenced footnote `u`. -/
def exUsedUnused : List Event :=
  [.footnoteReference "a",
   .startFootnoteDef "a", .startParagraph, .text "A", .endParagraph, .endFootnoteDef,
   .startFootnoteDef "u", .startParagraph, .text "U", .endParagraph, .endFootnoteDef]

end Notes

/-!
## Infrastructure lemmas
-/

namespace Notes

theorem mem_stInsert (le : α → α → Bool) (a x : α) :
    ∀ l : List α, a ∈ stInsert le x l ↔ a = x ∨ a ∈ l := by
  intro l
  induction l with
  | nil => simp [stInsert]
  | cons y ys ih =>
    simp only [stInsert]
    split
    · simp
    · simp only [List.mem_cons, ih]
      tauto

theorem mem_stSort (le : α → α → Bool) (a : α) :
    ∀ l : List α, a ∈ stSort le l ↔ a ∈ l := by
  intro l
  induction l with
  | nil => simp [stSort]
  | cons x xs ih =>
    simp only [stSort, mem_stInsert, ih, List.mem_cons]

theorem pairwise_stInsert (le : α → α → Bool)
    (total : ∀ a b, le a b = true ∨ le b a = true)
    (tr : ∀ a b c, le a b = true → le b c = true → le a c = true)
    (x : α) :
    ∀ l : List α, l.Pairwise (fun a b => le a b = true) →
      (stInsert le x l).Pairwise (fun a b => le a b = true) := by
  intro l
  induction l with
  | nil => intro _; simp [stInsert]
  | cons y ys ih =>
    intro h
    rw [List.pairwise_cons] at h
    simp only [stInsert]
    split
    · rw [List.pairwise_cons]
      refine ⟨?_, List.pairwise_cons.2 h⟩
      intro z hz
      rcases List.mem_cons.1 hz with rfl | hz
      · assumption
      · exact tr x y z (by assumption) (h.1 z hz)
    · rw [List.pairwise_cons]
      constructor
      · intro z hz
        rcases (mem_stInsert le z x ys).1 hz with rfl | hz
        · rcases total z y with hzy | hyz
          · exact absurd hzy (by assumption)
          · exact hyz
        · exact h.1 z hz
      · exact ih h.2

theorem pairwise_stSort (le : α → α → Bool)
    (total : ∀ a b, le a b = true ∨ le b a = true)
    (tr : ∀ a b c, le a b = true → le b c = true → le a c = true) :
    ∀ l : List α, (stSort le l).Pairwise (fun a b => le a b = true) := by
  intro l
  induction l with
  | nil => simp [stSort]
  | cons x xs ih => exact pairwise_stInsert le total tr x _ ih

theorem runT_append (E : Externals) (a b : List Event) :
    ∀ st, runT E st (a ++ b) = (runT E st a).bind (fun st1 => runT E st1 b) := by
  induction a with
  | nil => intro st; simp [runT]
  | cons e es ih =>
    intro st
    simp only [List.cons_append, runT]
    cases step E st e with
    | none => simp
    | some st1 => simpa using ih st1

theorem stepRef_meta (st : MdState) (name : String) :
    (stepRef st name).meta = st.meta := by
  unfold stepRef
  cases st.inFootnote <;> rfl

theorem step_meta {E : Externals} {st : MdState} {e : Event} {st' : MdState}
    (h : step E st e = some st')
    (ht : ∀ s, e = Event.text s → tomlDeMeta s = none) : st'.meta = st.meta := by
  cases e <;> simp only [step] at h
  case startParagraph => split at h <;> (cases h; rfl)
  case endParagraph => split at h <;> (cases h; rfl)
  case html s => split at h <;> (cases h; rfl)
  case startCodeBlock lang =>
    split at h
    · cases h; rfl
    · split at h <;> (cases h; rfl)
  case endCodeBlock =>
    split at h
    · cases h; rfl
    · split at h <;> (cases h; rfl)
  case text s =>
    rw [ht s rfl] at h
    split at h
    · cases h; rfl
    · split at h <;> (cases h; rfl)
  case footnoteReference name => cases h; exact stepRef_meta st name
  case startFootnoteDef name => cases h; rfl
  case endFootnoteDef =>
    split at h
    · cases h
    · cases h; rfl

theorem runT_meta_stable {E : Externals} :
    ∀ (es : List Event) (st st' : MdState),
      (∀ s, Event.text s ∈ es → tomlDeMeta s = none) →
      runT E st es = some st' → st'.meta = st.meta := by
  intro es
  induction es with
  | nil =>
    intro st st' _ h
    simp only [runT] at h
    cases h; rfl
  | cons e es ih =>
    intro st st' ht h
    simp only [runT] at h
    cases hs : step E st e with
    | none => rw [hs] at h; cases h
    | some st1 =>
      rw [hs] at h
      have h1 : st1.meta = st.meta :=
        step_meta hs (fun s he => ht s (by rw [he]; exact List.mem_cons_self _ _))
      have h2 := ih st1 st' (fun s hm => ht s (List.mem_cons_of_mem _ hm)) h
      rw [h2, h1]

theorem runMetaBlock {E : Externals} (st : MdState) (l t : String)
    (hp : st.parse = ParseState.normal) (hf : st.inFootnote = [])
    (hl : strTrim l = "meta") :
    runT E st [.startCodeBlock l, .text t, .endCodeBlock] =
      some { st with parse := ParseState.normal,
                     meta := match tomlDeMeta t with
                             | some m => some m
                             | none => st.meta } := by
  obtain ⟨p, c, mu, sy, fns, inf, nums, out⟩ := st
  obtain rfl : p = ParseState.normal := hp
  obtain rfl : inf = [] := hf
  cases htm : tomlDeMeta t <;> simp [runT, step, hl, htm]

end Notes

namespace Notes

theorem pushTop_length (bufs : List (List Event)) (e : Event) :
    (pushTop bufs e).length = bufs.length := by
  cases bufs <;> rfl

theorem stepRef_inFootnote_length (st : MdState) (name : String) :
    (stepRef st name).inFootnote.length = st.inFootnote.length := by
  unfold stepRef
  cases st.inFootnote <;> rfl

theorem fnBalanced_other {d : Nat} {e : Event} {es : List Event}
    (h1 : ∀ n, e ≠ .startFootnoteDef n) (h2 : e ≠ .endFootnoteDef) :
    fnBalanced d (e :: es) = fnBalanced d es := by
  cases e <;> simp [fnBalanced] at h1 h2 ⊢

theorem step_other_some (E : Externals) (st : MdState) (e : Event)
    (h1 : ∀ n, e ≠ .startFootnoteDef n) (h2 : e ≠ .endFootnoteDef) :
    ∃ st', step E st e = some st' ∧ st'.inFootnote.length = st.inFootnote.length := by
  cases e <;> simp only [step]
  case startParagraph =>
    split
    · exact ⟨_, rfl, pushTop_length _ _⟩
    · exact ⟨_, rfl, rfl⟩
  case endParagraph =>
    split
    · exact ⟨_, rfl, pushTop_length _ _⟩
    · exact ⟨_, rfl, rfl⟩
  case html s =>
    split
    · exact ⟨_, rfl, pushTop_length _ _⟩
    · exact ⟨_, rfl, rfl⟩
  case startCodeBlock lang =>
    split
    · exact ⟨_, rfl, pushTop_length _ _⟩
    · split
      · exact ⟨_, rfl, rfl⟩
      · exact ⟨_, rfl, rfl⟩
  case endCodeBlock =>
    split
    · exact ⟨_, rfl, pushTop_length _ _⟩
    · split <;> exact ⟨_, rfl, rfl⟩
  case text s =>
    split
    · exact ⟨_, rfl, pushTop_length _ _⟩
    · split
      · exact ⟨_, rfl, rfl⟩
      · split <;> exact ⟨_, rfl, rfl⟩
      · exact ⟨_, rfl, rfl⟩
  case footnoteReference n =>
    exact ⟨_, rfl, stepRef_inFootnote_length st n⟩
  case startFootnoteDef n => exact absurd rfl (h1 n)
  case endFootnoteDef => exact absurd rfl h2

theorem runT_balanced {E : Externals} :
    ∀ (es : List Event) (st : MdState),
      fnBalanced st.inFootnote.length es = true → (runT E st es).isSome = true := by
  intro es
  induction es with
  | nil => intro st _; simp [runT]
  | cons e es ih =>
    intro st hb
    by_cases hs : ∃ n, e = Event.startFootnoteDef n
    · obtain ⟨n, rfl⟩ := hs
      simp only [fnBalanced] at hb
      simp only [runT, step]
      exact ih _ (by simpa using hb)
    · by_cases he : e = Event.endFootnoteDef
      · subst he
        simp only [fnBalanced, Bool.and_eq_true, bne_iff_ne] at hb
        obtain ⟨hd, hb⟩ := hb
        cases hin : st.inFootnote with
        | nil => rw [hin] at hd; simp at hd
        | cons f rest =>
          simp only [runT, step, hin]
          apply ih
          rw [hin] at hb
          simpa using hb
      · have h1 : ∀ n, e ≠ Event.startFootnoteDef n := fun n hn => hs ⟨n, hn⟩
        obtain ⟨st', hstep, hlen⟩ := step_other_some E st e h1 he
        rw [fnBalanced_other h1 he] at hb
        simp only [runT, hstep]
        exact ih st' (by rw [hlen]; exact hb)

theorem GoodBuf_append {fl : List Event} {e : Event}
    (h : GoodBuf fl) (he : NoFnEvent e) : GoodBuf (fl ++ [e]) := by
  obtain ⟨name, rest, rfl, hr⟩ := h
  refine ⟨name, rest ++ [e], by simp, ?_⟩
  intro x hx
  rcases List.mem_append.1 hx with h | h
  · exact hr x h
  · simp only [List.mem_singleton] at h
    subst h; exact he

theorem pushTop_goodBuf {bufs : List (List Event)} {e : Event}
    (hb : ∀ fl ∈ bufs, GoodBuf fl) (he : NoFnEvent e) :
    ∀ fl ∈ pushTop bufs e, GoodBuf fl := by
  cases bufs with
  | nil => intro fl h; simp [pushTop] at h
  | cons b r =>
    intro fl h
    simp only [pushTop, List.mem_cons] at h
    rcases h with rfl | h
    · exact GoodBuf_append (hb b (List.mem_cons_self _ _)) he
    · exact hb fl (List.mem_cons_of_mem _ h)

theorem stepRef_inv {st : MdState} {name : String} (hi : InvBufs st) :
    InvBufs (stepRef st name) := by
  obtain ⟨hfns, hbufs⟩ := hi
  obtain ⟨p, c, mu, sy, fns, inf, nums, out⟩ := st
  cases inf with
  | nil =>
    refine ⟨hfns, ?_⟩
    intro fl hfl
    simp [stepRef] at hfl
  | cons b r =>
    refine ⟨hfns, ?_⟩
    intro fl hfl
    simp only [stepRef, List.mem_cons] at hfl
    rcases hfl with rfl | hfl
    · exact GoodBuf_append (hbufs b (List.mem_cons_self _ _))
        ⟨(fun _ h => nomatch h), (fun _ h => nomatch h)⟩
    · exact hbufs fl (List.mem_cons_of_mem _ hfl)

theorem step_inv {E : Externals} {st : MdState} {e : Event} {st' : MdState}
    (h : step E st e = some st') (hi : InvBufs st) : InvBufs st' := by
  obtain ⟨hfns, hbufs⟩ := hi
  cases e <;> simp only [step] at h
  case footnoteReference name => cases h; exact stepRef_inv ⟨hfns, hbufs⟩
  case startFootnoteDef name =>
    cases h
    refine ⟨hfns, ?_⟩
    intro fl hfl
    simp only [List.mem_cons] at hfl
    rcases hfl with rfl | hfl
    · exact ⟨name, [], rfl, by intro e he; simp at he⟩
    · exact hbufs fl hfl
  case endFootnoteDef =>
    cases hin : st.inFootnote with
    | nil => rw [hin] at h; cases h
    | cons f rest =>
      rw [hin] at h
      cases h
      constructor
      · intro fl hfl
        rcases List.mem_append.1 hfl with hfl | hfl
        · exact hfns fl hfl
        · simp only [List.mem_singleton] at hfl
          subst hfl
          refine GoodBuf_append (hbufs f (by rw [hin]; exact List.mem_cons_self _ _)) ?_
          exact ⟨(fun _ h => nomatch h), (fun _ h => nomatch h)⟩
      · intro fl hfl
        exact hbufs fl (by rw [hin]; exact List.mem_cons_of_mem _ hfl)
  case startParagraph =>
    split at h
    · cases h
      exact ⟨hfns, pushTop_goodBuf hbufs ⟨(fun _ h => nomatch h), (fun _ h => nomatch h)⟩⟩
    · cases h; exact ⟨hfns, hbufs⟩
  case endParagraph =>
    split at h
    · cases h
      exact ⟨hfns, pushTop_goodBuf hbufs ⟨(fun _ h => nomatch h), (fun _ h => nomatch h)⟩⟩
    · cases h; exact ⟨hfns, hbufs⟩
  case html s =>
    split at h
    · cases h
      exact ⟨hfns, pushTop_goodBuf hbufs ⟨(fun _ h => nomatch h), (fun _ h => nomatch h)⟩⟩
    · cases h; exact ⟨hfns, hbufs⟩
  case startCodeBlock lang =>
    split at h
    · cases h
      exact ⟨hfns, pushTop_goodBuf hbufs ⟨(fun _ h => nomatch h), (fun _ h => nomatch h)⟩⟩
    · split at h <;> (cases h; exact ⟨hfns, hbufs⟩)
  case endCodeBlock =>
    split at h
    · cases h
      exact ⟨hfns, pushTop_goodBuf hbufs ⟨(fun _ h => nomatch h), (fun _ h => nomatch h)⟩⟩
    · split at h <;> (cases h; exact ⟨hfns, hbufs⟩)
  case text s =>
    split at h
    · cases h
      exact ⟨hfns, pushTop_goodBuf hbufs ⟨(fun _ h => nomatch h), (fun _ h => nomatch h)⟩⟩
    · split at h
      · cases h; exact ⟨hfns, hbufs⟩
      · split at h <;> (cases h; exact ⟨hfns, hbufs⟩)
      · cases h; exact ⟨hfns, hbufs⟩

theorem runT_inv {E : Externals} :
    ∀ (es : List Event) (st st' : MdState),
      runT E st es = some st' → InvBufs st → InvBufs st' := by
  intro es
  induction es with
  | nil => intro st st' h hi; simp only [runT] at h; cases h; exact hi
  | cons e es ih =>
    intro st st' h hi
    simp only [runT] at h
    cases hs : step E st e with
    | none => rw [hs] at h; cases h
    | some st1 =>
      rw [hs] at h
      exact ih st1 st' h (step_inv hs hi)

end Notes

namespace Notes

theorem brStep_some (m : List (String × Nat × Nat)) (L : Nat) (s : BrState) (i : Nat)
    (f : Event) (hf : NoFnEvent f) (hn : (fnLookup m s.name).isSome = true) :
    ∃ sn hwb ev, brStep m L s i f = some (⟨sn, hwb⟩, ev) ∧ sn = s.name := by
  obtain ⟨nc, hnc⟩ := Option.isSome_iff_exists.1 hn
  obtain ⟨sname, shwb⟩ := s
  cases f <;> simp only [brStep]
  case startFootnoteDef n => exact absurd rfl (hf.2 n)
  case footnoteReference n => exact absurd rfl (hf.1 n)
  case endFootnoteDef =>
    split
    · simp only [brBackrefs, hnc]
      exact ⟨sname, true, _, rfl, rfl⟩
    · exact ⟨sname, shwb, _, rfl, rfl⟩
  case endParagraph =>
    split
    · simp only [brBackrefs, hnc]
      exact ⟨sname, true, _, rfl, rfl⟩
    · exact ⟨sname, shwb, _, rfl, rfl⟩
  case startParagraph => exact ⟨sname, shwb, _, rfl, rfl⟩
  case startCodeBlock lang => exact ⟨sname, shwb, _, rfl, rfl⟩
  case endCodeBlock => exact ⟨sname, shwb, _, rfl, rfl⟩
  case text t => exact ⟨sname, shwb, _, rfl, rfl⟩
  case html t => exact ⟨sname, shwb, _, rfl, rfl⟩

theorem brRun_isSome (m : List (String × Nat × Nat)) (L : Nat) (name : String)
    (hn : (fnLookup m name).isSome = true) :
    ∀ (rest : List Event) (i : Nat) (hwb : Bool),
      (∀ e ∈ rest, NoFnEvent e) →
      (brRun m L ⟨name, hwb⟩ i rest).isSome = true := by
  intro rest
  induction rest with
  | nil => intro i hwb _; simp [brRun]
  | cons f fs ih =>
    intro i hwb hno
    have hfs : ∀ e ∈ fs, NoFnEvent e := fun e he => hno e (List.mem_cons_of_mem _ he)
    obtain ⟨sn, hwb', ev, hse, hname⟩ :=
      brStep_some m L ⟨name, hwb⟩ i f (hno f (List.mem_cons_self _ _)) hn
    have hname' : sn = name := hname
    subst hname'
    simp only [brRun, hse]
    simpa using ih (i + 1) hwb' hfs

theorem renderFootnote_isSome {m : List (String × Nat × Nat)} {fl : List Event}
    (hg : GoodBuf fl) (hk : keepFn m fl = true) :
    (renderFootnote m fl).isSome = true := by
  obtain ⟨name, rest, rfl, hr⟩ := hg
  have hn : (fnLookup m name).isSome = true := by
    simp only [keepFn, List.head?] at hk
    cases hlk : fnLookup m name
    · rw [fnUsage, hlk] at hk
      simp at hk
    · rfl
  simp only [renderFootnote, brRun, brStep]
  simpa using brRun_isSome m _ name hn rest 1 false hr

theorem renderAll_isSome {m : List (String × Nat × Nat)} :
    ∀ fls : List (List Event),
      (∀ fl ∈ fls, (renderFootnote m fl).isSome = true) →
      (renderAll m fls).isSome = true := by
  intro fls
  induction fls with
  | nil => intro _; simp [renderAll]
  | cons fl fls ih =>
    intro h
    obtain ⟨out, hout⟩ := Option.isSome_iff_exists.1 (h fl (List.mem_cons_self _ _))
    obtain ⟨rest, hrest⟩ :=
      Option.isSome_iff_exists.1 (ih fun x hx => h x (List.mem_cons_of_mem _ hx))
    simp [renderAll, hout, hrest]

theorem footnoteSection_isSome {m : List (String × Nat × Nat)}
    {fns : List (List Event)} (h : ∀ fl ∈ fns, GoodBuf fl) :
    (footnoteSection m fns).isSome = true := by
  unfold footnoteSection
  split
  · rfl
  · have hra : (renderAll m (stSort (fnLe m) (fns.filter (keepFn m)))).isSome = true := by
      apply renderAll_isSome
      intro fl hfl
      have hmem : fl ∈ fns.filter (keepFn m) := (mem_stSort (fnLe m) fl _).1 hfl
      have hm := List.mem_filter.1 hmem
      exact renderFootnote_isSome (h fl hm.1) hm.2
    obtain ⟨evs, hevs⟩ := Option.isSome_iff_exists.1 hra
    simp [hevs]

end Notes

namespace Notes

theorem stepRef_fnNumbers (st : MdState) (name : String) :
    (stepRef st name).fnNumbers = bumpMap st.fnNumbers name := by
  unfold stepRef bumpMap
  cases st.inFootnote <;> rfl

theorem step_fnNumbers {E : Externals} {st : MdState} {e : Event} {st' : MdState}
    (h : step E st e = some st') :
    st'.fnNumbers = match e with
      | .footnoteReference n => bumpMap st.fnNumbers n
      | _ => st.fnNumbers := by
  cases e <;> simp only [step] at h
  case footnoteReference n => cases h; exact stepRef_fnNumbers st n
  case startFootnoteDef n => cases h; rfl
  case endFootnoteDef =>
    split at h
    · cases h
    · cases h; rfl
  case startParagraph => split at h <;> (cases h; rfl)
  case endParagraph => split at h <;> (cases h; rfl)
  case html s => split at h <;> (cases h; rfl)
  case startCodeBlock lang =>
    split at h
    · cases h; rfl
    · split at h <;> (cases h; rfl)
  case endCodeBlock =>
    split at h
    · cases h; rfl
    · split at h <;> (cases h; rfl)
  case text s =>
    split at h
    · cases h; rfl
    · split at h
      · cases h; rfl
      · split at h <;> (cases h; rfl)
      · cases h; rfl

theorem runT_numbers {E : Externals} :
    ∀ (es : List Event) (st st' : MdState), runT E st es = some st' →
      st'.fnNumbers = (refNames es).foldl bumpMap st.fnNumbers := by
  intro es
  induction es with
  | nil => intro st st' h; simp only [runT] at h; cases h; rfl
  | cons e es ih =>
    intro st st' h
    simp only [runT] at h
    cases hs : step E st e with
    | none => rw [hs] at h; cases h
    | some st1 =>
      rw [hs] at h
      have h1 := step_fnNumbers hs
      have h2 := ih st1 st' h
      cases e <;> simp only [refNames, List.foldl_cons] <;> simp only at h1 <;>
        rw [h2, h1]

theorem numberFrom_append : ∀ (l : List String) (k : Nat) (x : String),
    numberFrom k (l ++ [x]) = numberFrom k l ++ [(x, k + l.length)] := by
  intro l
  induction l with
  | nil => intro k x; simp [numberFrom]
  | cons n ns ih =>
    intro k x
    have h : k + 1 + ns.length = k + (ns.length + 1) := by omega
    simp only [List.cons_append, numberFrom, List.length_cons, List.append_eq]
    rw [ih (k + 1) x, h]

theorem numberFrom_map_fst : ∀ (l : List String) (k : Nat),
    (numberFrom k l).map Prod.fst = l := by
  intro l
  induction l with
  | nil => intro k; rfl
  | cons n ns ih => intro k; simp [numberFrom, ih]

theorem numberFrom_length : ∀ (l : List String) (k : Nat),
    (numberFrom k l).length = l.length := by
  intro l
  induction l with
  | nil => intro k; rfl
  | cons n ns ih => intro k; simp [numberFrom, ih]

theorem fnLookup_eq_none {m : List (String × Nat × Nat)} {n : String}
    (h : n ∉ m.map Prod.fst) : fnLookup m n = none := by
  induction m with
  | nil => rfl
  | cons e rest ih =>
    simp only [List.map_cons, List.mem_cons] at h
    push_neg at h
    simp only [fnLookup]
    rw [if_neg (fun he => h.1 he.symm)]
    exact ih h.2

theorem fnLookup_isSome_of_mem {m : List (String × Nat × Nat)} {n : String}
    (h : n ∈ m.map Prod.fst) : (fnLookup m n).isSome = true := by
  induction m with
  | nil => simp at h
  | cons e rest ih =>
    simp only [List.map_cons, List.mem_cons] at h
    simp only [fnLookup]
    by_cases he : e.1 = n
    · rw [if_pos he]; rfl
    · rw [if_neg he]
      exact ih (h.resolve_left (fun hh => he hh.symm))

theorem fnUpdate_nameNums {m : List (String × Nat × Nat)} {n : String} {nc : Nat × Nat}
    (h : fnLookup m n = some nc) (c' : Nat) :
    nameNums (fnUpdate m n (nc.1, c')) = nameNums m := by
  induction m with
  | nil => rfl
  | cons e rest ih =>
    simp only [fnLookup] at h
    by_cases he : e.1 = n
    · rw [if_pos he] at h
      have h2 : e.2 = nc := Option.some.inj h
      simp only [fnUpdate, if_pos he, nameNums, List.map_cons, ← h2]
    · rw [if_neg he] at h
      have := ih h
      simp only [nameNums] at this
      simp only [fnUpdate, if_neg he, nameNums, List.map_cons, this]

theorem bumpMap_nameNums {m : List (String × Nat × Nat)} {fr : List String}
    (hm : nameNums m = numberFrom 1 fr) (n : String) :
    nameNums (bumpMap m n) = numberFrom 1 (frStep fr n) := by
  have hkeys : m.map Prod.fst = fr := by
    have h1 : (nameNums m).map Prod.fst = (numberFrom 1 fr).map Prod.fst := by rw [hm]
    rw [numberFrom_map_fst] at h1
    simpa [nameNums, List.map_map, Function.comp] using h1
  have hlen : m.length = fr.length := by
    have h1 : (nameNums m).length = (numberFrom 1 fr).length := by rw [hm]
    rw [numberFrom_length] at h1
    simpa [nameNums] using h1
  by_cases hmem : n ∈ fr
  · have hs : (fnLookup m n).isSome = true :=
      fnLookup_isSome_of_mem (by rw [hkeys]; exact hmem)
    obtain ⟨nc, hnc⟩ := Option.isSome_iff_exists.1 hs
    rw [frStep, if_pos hmem]
    unfold bumpMap fnBump
    rw [hnc]
    exact (fnUpdate_nameNums hnc (nc.2 + 1)).trans hm
  · have hnone : fnLookup m n = none := fnLookup_eq_none (by rw [hkeys]; exact hmem)
    rw [frStep, if_neg hmem]
    unfold bumpMap fnBump
    rw [hnone]
    simp only [nameNums, List.map_append, List.map_cons, List.map_nil]
    rw [numberFrom_append]
    simp only [nameNums] at hm
    rw [hm, hlen, Nat.add_comm fr.length 1]

theorem foldl_bumpMap_nameNums :
    ∀ (names : List String) (m : List (String × Nat × Nat)) (fr : List String),
      nameNums m = numberFrom 1 fr →
      nameNums (names.foldl bumpMap m) = numberFrom 1 (names.foldl frStep fr) := by
  intro names
  induction names with
  | nil => intro m fr hm; exact hm
  | cons n ns ih =>
    intro m fr hm
    simp only [List.foldl_cons]
    exact ih _ _ (bumpMap_nameNums hm n)

theorem numbersOf_spec (names : List String) :
    nameNums (numbersOf names) = numberFrom 1 (firstRefs names) :=
  foldl_bumpMap_nameNums names [] [] rfl

theorem runT_fnNumbers_spec {E : Externals} {events : List Event} {st : MdState}
    (h : runT E (initState E) events = some st) :
    st.fnNumbers = numbersOf (refNames events) := by
  have h1 := runT_numbers events (initState E) st h
  simpa [initState, numbersOf] using h1

theorem mem_foldl_frStep :
    ∀ (names : List String) (acc : List String) (x : String),
      x ∈ names.foldl frStep acc ↔ x ∈ acc ∨ x ∈ names := by
  intro names
  induction names with
  | nil => intro acc x; simp
  | cons n ns ih =>
    intro acc x
    simp only [List.foldl_cons, ih, List.mem_cons]
    unfold frStep
    split
    · constructor
      · rintro (h | h)
        · exact Or.inl h
        · exact Or.inr (Or.inr h)
      · rintro (h | h | h)
        · exact Or.inl h
        · subst h; exact Or.inl (by assumption)
        · exact Or.inr h
    · simp only [List.mem_append, List.mem_singleton]
      tauto
  
theorem mem_firstRefs {x : String} {names : List String} :
    x ∈ firstRefs names ↔ x ∈ names := by
  simp [firstRefs, mem_foldl_frStep]

theorem pairwise_key_stSort (m : List (String × Nat × Nat)) (l : List (List Event)) :
    List.Pairwise (fun a b => fnKey m a ≤ fnKey m b) (stSort (fnLe m) l) := by
  have total : ∀ a b, fnLe m a b = true ∨ fnLe m b a = true := by
    intro a b
    simp only [fnLe, decide_eq_true_eq]
    omega
  have tr : ∀ a b c, fnLe m a b = true → fnLe m b c = true → fnLe m a c = true := by
    intro a b c hab hbc
    simp only [fnLe, decide_eq_true_eq] at hab hbc ⊢
    omega
  have h := pairwise_stSort (fnLe m) total tr l
  exact h.imp (fun hab => by simpa [fnLe] using hab)

end Notes

namespace Notes

theorem mdtodoc_snd {E : Externals} {events : List Event} {im : Meta}
    {r : String × Meta} (h : mdtodoc E events im = some r) :
    ∃ st, runT E (initState E) events = some st ∧ r.2 = st.meta.getD im := by
  unfold mdtodoc at h
  cases hst : runT E (initState E) events with
  | none => rw [hst] at h; cases h
  | some st =>
    rw [hst, Option.some_bind] at h
    cases hfs : footnoteSection st.fnNumbers st.footnotes with
    | none => rw [hfs] at h; cases h
    | some fns =>
      rw [hfs, Option.map_some'] at h
      have h2 := Option.some.inj h
      exact ⟨st, rfl, by rw [← h2]⟩

theorem strContainsB_of_infix {h n : String} (hin : n.data <:+: h.data) :
    strContainsB h n = true := by
  obtain ⟨s, t, hst⟩ := hin
  unfold strContainsB
  rw [List.any_eq_true]
  refine ⟨n.data ++ t, ?_, ?_⟩
  · rw [List.mem_tails]
    exact ⟨s, by rw [← hst, List.append_assoc]⟩
  · rw [List.isPrefixOf_iff_prefix]
    exact List.prefix_append _ _

/-- C1: for every document made of a prefix (ending outside any code block
or footnote), a well-formed `meta` fenced block, and a suffix whose text
events never parse as metadata, the metadata resolved by `mdtodoc` equals
the block's parsed record — for every caller-supplied inferred record,
which is replaced wholesale. -/
theorem C1_meta_override (E : Externals) (pre suf : List Event) (l t : String)
    (m : Meta) (inferedMeta : Meta) (st0 : MdState) (r : String × Meta)
    (hpre : runT E (initState E) pre = some st0)
    (hp : st0.parse = ParseState.normal) (hf : st0.inFootnote = [])
    (hl : strTrim l = "meta")
    (ht : tomlDeMeta t = some m)
    (hsuf : ∀ s, Event.text s ∈ suf → tomlDeMeta s = none)
    (hr : mdtodoc E (pre ++ [.startCodeBlock l, .text t, .endCodeBlock] ++ suf)
            inferedMeta = some r) :
    r.2 = m := by
  obtain ⟨st2, hrun, hsnd⟩ := mdtodoc_snd hr
  rw [runT_append, runT_append, hpre, Option.some_bind,
    runMetaBlock st0 l t hp hf hl, Option.some_bind] at hrun
  have hm2 := runT_meta_stable suf _ st2 hsuf hrun
  rw [hsnd, hm2]
  simp [ht]

/-- C1 witness: the single-block document with body `exMetaText` resolves
to the block's parsed record, not the inferred `m0`. -/
theorem C1_meta_override_witness :
    (Option.map Prod.snd (mdtodoc E0
        ([] ++ [.startCodeBlock "meta", .text exMetaText, .endCodeBlock] ++ []) m0)).getD m0
      = ⟨"T", "2024-01-01T00:00:00", none, none⟩ := by
  have hs : (mdtodoc E0 ([] ++ [.startCodeBlock "meta", .text exMetaText, .endCodeBlock] ++ []) m0).isSome = true := rfl
  obtain ⟨r, hr⟩ := Option.isSome_iff_exists.1 hs
  have := C1_meta_override E0 [] [] "meta" exMetaText
    ⟨"T", "2024-01-01T00:00:00", none, none⟩ m0 (initState E0) r rfl rfl rfl rfl rfl
    (fun s hs => absurd hs (List.not_mem_nil _)) hr
  rw [hr, Option.map_some']
  rw [this]
  rfl

/-- C9: metadata resolution is last-writer-wins: after any prefix (ending
outside code blocks and footnotes), a further well-formed `meta` block
overwrites whatever metadata was collected before, while a malformed one
leaves the previously collected metadata (or the inferred fallback)
untouched. -/
theorem C9_last_meta_wins (E : Externals) (pre : List Event) (l t : String)
    (inferedMeta : Meta) (st0 : MdState)
    (hpre : runT E (initState E) pre = some st0)
    (hp : st0.parse = ParseState.normal) (hf : st0.inFootnote = [])
    (hl : strTrim l = "meta") :
    (∀ m r, tomlDeMeta t = some m →
        mdtodoc E (pre ++ [.startCodeBlock l, .text t, .endCodeBlock]) inferedMeta
          = some r → r.2 = m) ∧
    (∀ r, tomlDeMeta t = none →
        mdtodoc E (pre ++ [.startCodeBlock l, .text t, .endCodeBlock]) inferedMeta
          = some r → r.2 = st0.meta.getD inferedMeta) := by
  constructor
  · intro m r ht hr
    obtain ⟨st2, hrun, hsnd⟩ := mdtodoc_snd hr
    rw [runT_append, hpre, Option.some_bind, runMetaBlock st0 l t hp hf hl] at hrun
    have h2 := Option.some.inj hrun
    rw [hsnd, ← h2]
    simp [ht]
  · intro r ht hr
    obtain ⟨st2, hrun, hsnd⟩ := mdtodoc_snd hr
    rw [runT_append, hpre, Option.some_bind, runMetaBlock st0 l t hp hf hl] at hrun
    have h2 := Option.some.inj hrun
    rw [hsnd, ← h2]
    simp [ht]

/-- C9 witness: a first block resolves to `T`; a later malformed block does
not erase it. -/
theorem C9_last_meta_wins_witness :
    (Option.map Prod.snd (mdtodoc E0
        ([.startCodeBlock "meta", .text exMetaText, .endCodeBlock] ++
         [.startCodeBlock "meta", .text "not toml", .endCodeBlock]) m0)).getD m0
      = ⟨"T", "2024-01-01T00:00:00", none, none⟩ := by
  have hst0 : runT E0 (initState E0) [.startCodeBlock "meta", .text exMetaText, .endCodeBlock]
      = some ((runT E0 (initState E0)
          [.startCodeBlock "meta", .text exMetaText, .endCodeBlock]).getD (initState E0)) := rfl
  have hs : (mdtodoc E0
      ([.startCodeBlock "meta", .text exMetaText, .endCodeBlock] ++
       [.startCodeBlock "meta", .text "not toml", .endCodeBlock]) m0).isSome = true := rfl
  obtain ⟨r, hr⟩ := Option.isSome_iff_exists.1 hs
  have := (C9_last_meta_wins E0 [.startCodeBlock "meta", .text exMetaText, .endCodeBlock]
    "meta" "not toml" m0 _ hst0 rfl rfl rfl).2 r rfl hr
  rw [hr, Option.map_some', this]
  rfl

/-- C4 counterexample: a `meta` block carrying the unknown key `foo` does
not fail: it parses (serde ignores unknown fields) and its record overrides
the inferred metadata instead of triggering the fallback. -/
theorem C4_unknown_key_counterexample :
    tomlDeMeta exMetaUnknownKey = some ⟨"T", "2024-01-01T00:00:00", none, none⟩ ∧
    (mdtodoc E0 [.startCodeBlock "meta", .text exMetaUnknownKey, .endCodeBlock] m0).map
        Prod.snd = some ⟨"T", "2024-01-01T00:00:00", none, none⟩ ∧
    (⟨"T", "2024-01-01T00:00:00", none, none⟩ : Meta) ≠ m0 :=
  ⟨rfl, rfl, by decide⟩

/-- C4 amended: unknown keys are ignored by the derived deserializer; only
a block whose body genuinely fails to parse contributes no metadata, in
which case `mdtodoc` falls back to the caller's inferred record. -/
theorem C4_parse_failure_fallback (E : Externals) (inferedMeta : Meta) (t : String)
    (h : tomlDeMeta t = none) (r : String × Meta)
    (hr : mdtodoc E [.startCodeBlock "meta", .text t, .endCodeBlock] inferedMeta
            = some r) :
    r.2 = inferedMeta := by
  obtain ⟨st, hrun, hsnd⟩ := mdtodoc_snd hr
  rw [runMetaBlock (initState E) "meta" t rfl rfl (by decide)] at hrun
  have h2 := Option.some.inj hrun
  rw [hsnd, ← h2]
  simp [h, initState]

/-- C4 witness: an unparseable block body falls back to `m0`. -/
theorem C4_parse_failure_fallback_witness :
    (Option.map Prod.snd
        (mdtodoc E0 [.startCodeBlock "meta", .text "not toml", .endCodeBlock] m0)).getD m0
      = m0 := by
  have hs : (mdtodoc E0 [.startCodeBlock "meta", .text "not toml", .endCodeBlock] m0).isSome
      = true := rfl
  obtain ⟨r, hr⟩ := Option.isSome_iff_exists.1 hs
  have := C4_parse_failure_fallback E0 m0 "not toml" rfl r hr
  rw [hr, Option.map_some', this]
  rfl

set_option maxRecDepth 16384 in
/-- C5 counterexample: a `meta` fenced block inside a referenced footnote
definition is buffered as an ordinary code block, and its raw body text
appears verbatim in the rendered HTML. -/
theorem C5_meta_invisibility_counterexample :
    (mdtodoc E0 exMetaInFootnote m0).isSome = true ∧
    strContainsB ((mdtodoc E0 exMetaInFootnote m0).getD ("", m0)).1
        "date = 2024-01-01" = true :=
  ⟨rfl, rfl⟩

/-- C5 amended: a `meta` block encountered in the main body (Normal parse
state, empty footnote stack) contributes no output events and leaves every
state component except the collected metadata unchanged; a block inside a
footnote definition is instead captured raw into the footnote buffer (see
the counterexample). -/
theorem C5_meta_block_invisible_in_body (E : Externals) (st : MdState) (l t : String)
    (hp : st.parse = ParseState.normal) (hf : st.inFootnote = [])
    (hl : strTrim l = "meta") :
    runT E st [.startCodeBlock l, .text t, .endCodeBlock] =
      some { st with parse := ParseState.normal,
                     meta := match tomlDeMeta t with
                             | some m => some m
                             | none => st.meta } :=
  runMetaBlock st l t hp hf hl

/-- C5 witness: the body-position meta block leaves output, footnotes and
numbering of the initial state untouched. -/
theorem C5_meta_block_invisible_in_body_witness :
    runT E0 (initState E0) [.startCodeBlock "meta", .text exMetaText, .endCodeBlock] =
      some { initState E0 with
               parse := ParseState.normal,
               meta := (match tomlDeMeta exMetaText with
                        | some m => some m
                        | none => (initState E0).meta) } :=
  C5_meta_block_invisible_in_body E0 (initState E0) "meta" exMetaText rfl rfl (by decide)

/-- C7: the highlight step always succeeds: a fenced block with any non-meta
tag runs to completion; a tag with no matching syntax definition falls back
to the plain-text syntax, and an engine failure yields the original
unhighlighted code text. -/
theorem C7_highlight_total (E : Externals) (st : MdState) (lang code : String)
    (hp : st.parse = ParseState.normal) (hf : st.inFootnote = [])
    (hc : st.code = "") (hl : ¬strTrim lang = "meta") :
    runT E st [.startCodeBlock lang, .text code, .endCodeBlock] =
      some { st with parse := ParseState.normal, code := "",
                     syn := lookupSyn E (strTrim lang),
                     output := st.output ++
                       [.html (doHighlight E code (lookupSyn E (strTrim lang)))] } ∧
    (E.findSynByToken (strTrim lang) = none →
      lookupSyn E (strTrim lang) = E.plainText) ∧
    (E.highlightedHtmlForString code (lookupSyn E (strTrim lang)) = none →
      doHighlight E code (lookupSyn E (strTrim lang)) = code) := by
  obtain ⟨p, c, mu, sy, fns, inf, nums, out⟩ := st
  obtain rfl : p = ParseState.normal := hp
  obtain rfl : inf = [] := hf
  obtain rfl : c = "" := hc
  refine ⟨?_, ?_, ?_⟩
  · simp [runT, step, hl]
  · intro h; simp [lookupSyn, h]
  · intro h; simp [doHighlight, h]

/-- C7 witness: the unknown tag `pythonn` with an always-failing engine
still completes, using the plain-text syntax and emitting the original
code. -/
theorem C7_highlight_total_witness :
    runT E0 (initState E0) [.startCodeBlock "pythonn", .text "x", .endCodeBlock] =
      some { initState E0 with
               parse := ParseState.normal,
               code := "",
               syn := lookupSyn E0 (strTrim "pythonn"),
               output := (initState E0).output ++
                 [.html (doHighlight E0 "x" (lookupSyn E0 (strTrim "pythonn")))] } ∧
    lookupSyn E0 (strTrim "pythonn") = E0.plainText ∧
    doHighlight E0 "x" (lookupSyn E0 (strTrim "pythonn")) = "x" := by
  have h := C7_highlight_total E0 (initState E0) "pythonn" "x" rfl rfl rfl (by decide)
  exact ⟨h.1, h.2.1 rfl, h.2.2 rfl⟩

/-- C8: `mdtodoc` is total on every event stream whose footnote-definition
start/end events are properly nested (as the markdown parser guarantees):
no panic site is reached and a document/metadata pair is produced. -/
theorem C8_mdtodoc_total (E : Externals) (events : List Event) (inferedMeta : Meta)
    (hb : fnBalanced 0 events = true) :
    (mdtodoc E events inferedMeta).isSome = true := by
  have h0 : fnBalanced (initState E).inFootnote.length events = true := hb
  have h1 := runT_balanced (E := E) events (initState E) h0
  obtain ⟨st, hst⟩ := Option.isSome_iff_exists.1 h1
  have hinv : InvBufs st := runT_inv events (initState E) st hst
    ⟨fun fl h => absurd h (List.not_mem_nil fl), fun fl h => absurd h (List.not_mem_nil fl)⟩
  obtain ⟨fns, hfns⟩ := Option.isSome_iff_exists.1
    (footnoteSection_isSome (m := st.fnNumbers) hinv.1)
  simp [mdtodoc, hst, hfns]

/-- C8 witness: the numbering example document compiles. -/
theorem C8_mdtodoc_total_witness : (mdtodoc E0 exNumbering m0).isSome = true :=
  C8_mdtodoc_total E0 exNumbering m0 rfl

end Notes

namespace Notes

/-- C2: footnote names receive presentation numbers in first-reference
order — the numbering map lists the distinct referenced names in the order
of their first reference, numbered 1, 2, 3, ... — and the footnote list
rendered at the end (retained definitions, stably sorted by that number)
is ordered by presentation number regardless of definition order. -/
theorem C2_footnote_numbering (E : Externals) (events : List Event)
    (st : MdState) (h : runT E (initState E) events = some st) :
    nameNums st.fnNumbers = numberFrom 1 (firstRefs (refNames events)) ∧
    List.Pairwise (fun a b => fnKey st.fnNumbers a ≤ fnKey st.fnNumbers b)
      (stSort (fnLe st.fnNumbers) (st.footnotes.filter (keepFn st.fnNumbers))) := by
  constructor
  · rw [runT_fnNumbers_spec h]
    exact numbersOf_spec _
  · exact pairwise_key_stSort _ _

set_option maxRecDepth 16384 in
/-- C2 witness: for body references `b, a, b` (with `a` defined first),
the map lists `b` at number 1 and `a` at number 2, and the sorted footnote
list is ordered by those numbers. -/
theorem C2_footnote_numbering_witness :
    nameNums ((runT E0 (initState E0) exNumbering).getD (initState E0)).fnNumbers
        = numberFrom 1 (firstRefs (refNames exNumbering)) ∧
    List.Pairwise (fun a b =>
        fnKey ((runT E0 (initState E0) exNumbering).getD (initState E0)).fnNumbers a ≤
        fnKey ((runT E0 (initState E0) exNumbering).getD (initState E0)).fnNumbers b)
      (stSort (fnLe ((runT E0 (initState E0) exNumbering).getD (initState E0)).fnNumbers)
        (((runT E0 (initState E0) exNumbering).getD (initState E0)).footnotes.filter
          (keepFn ((runT E0 (initState E0) exNumbering).getD (initState E0)).fnNumbers))) :=
  C2_footnote_numbering E0 exNumbering _ rfl

set_option maxRecDepth 16384 in
/-- C3 counterexample: a footnote referenced exactly three times renders
its first backlink as a bare `↩` — the document contains `↩2` and `↩3`
but no `↩1`, so the backlinks are not `↩1`,`↩2`,`↩3` as claimed. -/
theorem C3_backlinks_counterexample :
    (mdtodoc E0 exTriple m0).isSome = true ∧
    strContainsB ((mdtodoc E0 exTriple m0).getD ("", m0)).1 "↩1" = false ∧
    strContainsB ((mdtodoc E0 exTriple m0).getD ("", m0)).1 "↩2" = true ∧
    strContainsB ((mdtodoc E0 exTriple m0).getD ("", m0)).1 "↩3" = true :=
  ⟨rfl, rfl, rfl, rfl⟩

/-- C3 amended: a footnote whose name has usage count `c` gets, appended
to its final paragraph, one backlink per usage; the first is unnumbered
(`↩`) and each later one is numbered by its usage index (`↩2`, `↩3`, ...),
as witnessed by the general single-paragraph rendering equation and the
concrete three-usage and one-usage backlink strings. -/
theorem C3_backlinks_shape (m : List (String × Nat × Nat)) (name s : String)
    (k c : Nat) (h : fnLookup m name = some (k, c)) :
    renderFootnote m [.startFootnoteDef name, .startParagraph, .text s,
        .endParagraph, .endFootnoteDef] =
      some [.html ("<li id=\"fn-" ++ name ++ "\">"), .startParagraph, .text s,
            .html (backrefString name c ++ "</p>\n"), .html "</li>\n"] ∧
    backrefString "n" 3 =
      " <a href=\"#fr-n-1\">↩</a> <a href=\"#fr-n-2\">↩2</a> <a href=\"#fr-n-3\">↩3</a>" ∧
    backrefString "n" 1 = " <a href=\"#fr-n-1\">↩</a>" := by
  refine ⟨?_, by decide, by decide⟩
  simp [renderFootnote, brRun, brStep, brBackrefs, h]

/-- C3 witness: the shape equation at the triple-referenced footnote. -/
theorem C3_backlinks_shape_witness :
    renderFootnote [("n", 1, 3)] [.startFootnoteDef "n", .startParagraph, .text "hi",
        .endParagraph, .endFootnoteDef] =
      some [.html ("<li id=\"fn-" ++ "n" ++ "\">"), .startParagraph, .text "hi",
            .html (backrefString "n" 3 ++ "</p>\n"), .html "</li>\n"] ∧
    backrefString "n" 3 =
      " <a href=\"#fr-n-1\">↩</a> <a href=\"#fr-n-2\">↩2</a> <a href=\"#fr-n-3\">↩3</a>" ∧
    backrefString "n" 1 = " <a href=\"#fr-n-1\">↩</a>" :=
  C3_backlinks_shape [("n", 1, 3)] "n" "hi" 1 3 rfl

/-- C6: a collected footnote definition whose name is never referenced is
removed by the retain step: no element of the retained list — nor of the
sorted list the rendered footnote output is generated from — opens with
its definition-start event, so it contributes nothing to the list. -/
theorem C6_unused_footnotes_dropped (E : Externals) (events : List Event)
    (st : MdState) (name : String)
    (h : runT E (initState E) events = some st)
    (hz : name ∉ refNames events) :
    (∀ fl ∈ st.footnotes.filter (keepFn st.fnNumbers),
        fl.head? ≠ some (.startFootnoteDef name)) ∧
    (∀ fl ∈ stSort (fnLe st.fnNumbers) (st.footnotes.filter (keepFn st.fnNumbers)),
        fl.head? ≠ some (.startFootnoteDef name)) := by
  have hnums := runT_fnNumbers_spec h
  have hnn : nameNums st.fnNumbers = numberFrom 1 (firstRefs (refNames events)) := by
    rw [hnums]; exact numbersOf_spec _
  have hkeys : st.fnNumbers.map Prod.fst = firstRefs (refNames events) := by
    have h1 : (nameNums st.fnNumbers).map Prod.fst
        = (numberFrom 1 (firstRefs (refNames events))).map Prod.fst := by rw [hnn]
    rw [numberFrom_map_fst] at h1
    simpa [nameNums, List.map_map, Function.comp] using h1
  have hnone : fnLookup st.fnNumbers name = none := by
    apply fnLookup_eq_none
    rw [hkeys]
    exact fun hm => hz (mem_firstRefs.1 hm)
  have hkf : ∀ fl : List Event, fl.head? = some (Event.startFootnoteDef name) →
      keepFn st.fnNumbers fl = false := by
    intro fl hh
    simp [keepFn, hh, fnUsage, hnone]
  constructor
  · intro fl hfl hh
    have hmem := (List.mem_filter.1 hfl).2
    rw [hkf fl hh] at hmem
    cases hmem
  · intro fl hfl hh
    have hmem := (List.mem_filter.1 ((mem_stSort _ fl _).1 hfl)).2
    rw [hkf fl hh] at hmem
    cases hmem

set_option maxRecDepth 16384 in
/-- C6 witness: with `a` referenced and `u` unused, the single retained
footnote is not `u`'s definition. -/
theorem C6_unused_footnotes_dropped_witness :
    ([Event.startFootnoteDef "a", Event.startParagraph, Event.text "A",
      Event.endParagraph, Event.endFootnoteDef] : List Event).head?
      ≠ some (Event.startFootnoteDef "u") := by
  have hst : runT E0 (initState E0) exUsedUnused
      = some ((runT E0 (initState E0) exUsedUnused).getD (initState E0)) := rfl
  exact (C6_unused_footnotes_dropped E0 exUsedUnused _ "u" hst (by decide)).1
    _ (by decide)

set_option maxRecDepth 16384 in
/-- C10: in the rendered document the title is HTML-escaped at each of its
occurrences (title tag, og:title, h1), the description is escaped at both
of its occurrences, and the lang value is spliced verbatim — unescaped —
into the `html` element's lang attribute. -/
theorem C10_escaping (meta : Meta) (styles markdown : String) :
    (∀ l, meta.lang = some l →
      strContainsB (renderTemplate meta styles markdown)
        ("<html lang=\"" ++ l ++ "\">\n") = true) ∧
    strContainsB (renderTemplate meta styles markdown)
      ("<title>" ++ rinjaEscape meta.title ++ "</title>") = true ∧
    strContainsB (renderTemplate meta styles markdown)
      ("<meta property=\"og:title\" content=\"" ++ rinjaEscape meta.title ++ "\" />")
      = true ∧
    strContainsB (renderTemplate meta styles markdown)
      ("<h1> " ++ rinjaEscape meta.title ++ "</h1>") = true ∧
    (∀ d, meta.desc = some d →
      strContainsB (renderTemplate meta styles markdown)
        ("<meta name=\"description\" content=\"" ++ rinjaEscape d ++ "\" />") = true ∧
      strContainsB (renderTemplate meta styles markdown)
        ("<meta property=\"og:description\" content=\"" ++ rinjaEscape d ++ "\" />")
        = true) := by
  refine ⟨?_, ?_, ?_, ?_, ?_⟩
  · intro l hl
    apply strContainsB_of_infix
    refine ⟨("<!DOCTYPE html>\n").data,
      ("<head>\n<meta charset=\"utf-8\" />\n" ++
       "<title>" ++ rinjaEscape meta.title ++ "</title>" ++ "\n" ++
       "<meta property=\"og:title\" content=\"" ++ rinjaEscape meta.title ++ "\" />" ++ "\n" ++
       descMetas meta.desc ++
       "<style> " ++ styles ++ " </style>\n</head>\n<body><main>\n" ++
       "<h1> " ++ rinjaEscape meta.title ++ "</h1>" ++ "\n" ++
       "<article>" ++ markdown ++ "</article>\n</main></body>\n</html>\n").data, ?_⟩
    simp [renderTemplate, langAttr, hl, String.data_append, List.append_assoc]
  · apply strContainsB_of_infix
    refine ⟨("<!DOCTYPE html>\n" ++ langAttr meta.lang ++
      "<head>\n<meta charset=\"utf-8\" />\n").data,
      ("\n" ++
       "<meta property=\"og:title\" content=\"" ++ rinjaEscape meta.title ++ "\" />" ++ "\n" ++
       descMetas meta.desc ++
       "<style> " ++ styles ++ " </style>\n</head>\n<body><main>\n" ++
       "<h1> " ++ rinjaEscape meta.title ++ "</h1>" ++ "\n" ++
       "<article>" ++ markdown ++ "</article>\n</main></body>\n</html>\n").data, ?_⟩
    simp [renderTemplate, String.data_append, List.append_assoc]
  · apply strContainsB_of_infix
    refine ⟨("<!DOCTYPE html>\n" ++ langAttr meta.lang ++
      "<head>\n<meta charset=\"utf-8\" />\n" ++
      "<title>" ++ rinjaEscape meta.title ++ "</title>" ++ "\n").data,
      ("\n" ++ descMetas meta.desc ++
       "<style> " ++ styles ++ " </style>\n</head>\n<body><main>\n" ++
       "<h1> " ++ rinjaEscape meta.title ++ "</h1>" ++ "\n" ++
       "<article>" ++ markdown ++ "</article>\n</main></body>\n</html>\n").data, ?_⟩
    simp [renderTemplate, String.data_append, List.append_assoc]
  · apply strContainsB_of_infix
    refine ⟨("<!DOCTYPE html>\n" ++ langAttr meta.lang ++
      "<head>\n<meta charset=\"utf-8\" />\n" ++
      "<title>" ++ rinjaEscape meta.title ++ "</title>" ++ "\n" ++
      "<meta property=\"og:title\" content=\"" ++ rinjaEscape meta.title ++ "\" />" ++ "\n" ++
      descMetas meta.desc ++
      "<style> " ++ styles ++ " </style>\n</head>\n<body><main>\n").data,
      ("\n" ++ "<article>" ++ markdown ++ "</article>\n</main></body>\n</html>\n").data, ?_⟩
    simp [renderTemplate, String.data_append, List.append_assoc]
  · intro d hd
    constructor
    · apply strContainsB_of_infix
      refine ⟨("<!DOCTYPE html>\n" ++ langAttr meta.lang ++
        "<head>\n<meta charset=\"utf-8\" />\n" ++
        "<title>" ++ rinjaEscape meta.title ++ "</title>" ++ "\n" ++
        "<meta property=\"og:title\" content=\"" ++ rinjaEscape meta.title ++ "\" />" ++ "\n").data,
        ("\n" ++
         "<meta property=\"og:description\" content=\"" ++ rinjaEscape d ++ "\" />" ++ "\n" ++
         "<style> " ++ styles ++ " </style>\n</head>\n<body><main>\n" ++
         "<h1> " ++ rinjaEscape meta.title ++ "</h1>" ++ "\n" ++
         "<article>" ++ markdown ++ "</article>\n</main></body>\n</html>\n").data, ?_⟩
      simp [renderTemplate, descMetas, hd, String.data_append, List.append_assoc]
    · apply strContainsB_of_infix
      refine ⟨("<!DOCTYPE html>\n" ++ langAttr meta.lang ++
        "<head>\n<meta charset=\"utf-8\" />\n" ++
        "<title>" ++ rinjaEscape meta.title ++ "</title>" ++ "\n" ++
        "<meta property=\"og:title\" content=\"" ++ rinjaEscape meta.title ++ "\" />" ++ "\n" ++
        "<meta name=\"description\" content=\"" ++ rinjaEscape d ++ "\" />" ++ "\n").data,
        ("\n" ++
         "<style> " ++ styles ++ " </style>\n</head>\n<body><main>\n" ++
         "<h1> " ++ rinjaEscape meta.title ++ "</h1>" ++ "\n" ++
         "<article>" ++ markdown ++ "</article>\n</main></body>\n</html>\n").data, ?_⟩
      simp [renderTemplate, descMetas, hd, String.data_append, List.append_assoc]

set_option maxRecDepth 16384 in
/-- C10 witness: with a quote-carrying lang value, the raw value appears
verbatim in the lang attribute, while title and description appear
escaped. -/
theorem C10_escaping_witness :
    strContainsB (renderTemplate ⟨"a<b", "d", some "en\"x", some "c&d"⟩ "S" "B")
      ("<html lang=\"" ++ "en\"x" ++ "\">\n") = true ∧
    strContainsB (renderTemplate ⟨"a<b", "d", some "en\"x", some "c&d"⟩ "S" "B")
      ("<title>" ++ rinjaEscape "a<b" ++ "</title>") = true ∧
    strContainsB (renderTemplate ⟨"a<b", "d", some "en\"x", some "c&d"⟩ "S" "B")
      ("<meta name=\"description\" content=\"" ++ rinjaEscape "c&d" ++ "\" />") = true := by
  have h := C10_escaping ⟨"a<b", "d", some "en\"x", some "c&d"⟩ "S" "B"
  exact ⟨h.1 _ rfl, h.2.1, (h.2.2.2.2 _ rfl).1⟩

end Notes
